import Mathlib

/-!
# P.D Challenge Tester (`tester.js`)

A shallow embedding of the test engine of `tester.js`: the tests-file reader
(`readTests`), the median helper (`getMedian`), the base-time estimator
(`getBaseTime`, `runBaseTest`) and the test runner (`runTests`, `runTest`),
followed by theorems about them.

Conventions of the embedding.

* A JavaScript string is a list of characters (`Str`).  The only string
  operations the program applies are `split`, `trim`, concatenation, indexing
  of the first character and `===`; all of them are modelled on lists.
* A JavaScript number is an exact rational; `NaN` is kept apart in `Num`
  where the program can produce it.
* `undefined` is `none`.
* A thrown exception or a rejected promise is `Except.error`.
* The effects of the program (the clock, the child process) are passed
  explicitly as a `World`; `console.log` output is not modelled.
-/

namespace PDTester

/-- A JavaScript string. -/
abbrev Str := List Char

/-- Exceptions the program can raise. -/
inductive JsError where
  /-- A property read on `undefined` (here: `text.split` with `text` unset). -/
  | typeError
  /-- The call `readFileSync` failed. -/
  | fsError
  /-- The promisified `exec` rejected (spawn failure or non-zero exit code). -/
  | execError (code : Nat)
  deriving DecidableEq, Repr

deriving instance DecidableEq for Except

/-! ## Built-ins of the language used by the program -/

/-- Puts a character in front of the first part of a split in progress. -/
def consHead (c : Char) : List Str → List Str
  | [] => [[c]]
  | p :: ps => (c :: p) :: ps

/-- Worker of `strSplit`: scans `s` from the left; the counter is the number of
characters of an already matched separator that are still to be skipped. -/
def splitGo (sep : Str) : Nat → Str → List Str
  | _, [] => [[]]
  | n + 1, _ :: cs => splitGo sep n cs
  | 0, c :: cs =>
    if sep.isPrefixOf (c :: cs) then [] :: splitGo sep (sep.length - 1) cs
    else consHead c (splitGo sep 0 cs)

/-- The call `s.split(sep)` for a non-empty separator string: `s` is cut at
every occurrence of `sep`, found from left to right without overlap; with `k`
occurrences the result has `k + 1` parts. -/
def strSplit (s sep : Str) : List Str := splitGo sep 0 s

/-- White space and line terminators, the characters `trim` removes. -/
def isTrimChar (c : Char) : Bool :=
  let n := c.toNat
  n = 0x9 || n = 0xA || n = 0xB || n = 0xC || n = 0xD || n = 0x20 || n = 0xA0 ||
  n = 0x1680 || (0x2000 ≤ n && n ≤ 0x200A) || n = 0x2028 || n = 0x2029 ||
  n = 0x202F || n = 0x205F || n = 0x3000 || n = 0xFEFF

/-- The call `s.trim()`. -/
def trim (s : Str) : Str :=
  ((s.dropWhile isTrimChar).reverse.dropWhile isTrimChar).reverse

/-- The result of `Math.round`: the nearest integer, a tie going up. -/
def mathRound (x : ℚ) : ℤ := ⌊x + 1 / 2⌋

/-- Strict comparison of two strings, character by character, as `<` on
strings (code points and code units agree on the characters of numerals). -/
def strLt : Str → Str → Bool
  | _, [] => false
  | [], _ :: _ => true
  | a :: as, b :: bs =>
    if a.toNat < b.toNat then true
    else if b.toNat < a.toNat then false
    else strLt as bs

/-- The order of the default comparator of `Array.prototype.sort`: the
elements are compared through their string forms. -/
def sortLe (toStr : ℚ → Str) (x y : ℚ) : Prop := strLt (toStr y) (toStr x) = false

instance (toStr : ℚ → Str) : DecidableRel (sortLe toStr) :=
  fun _ _ => by unfold sortLe; infer_instance

/-- The call `array.sort()` with no comparator, on numbers: a stable sort by
the string forms of the elements. -/
def defaultSort (toStr : ℚ → Str) (array : List ℚ) : List ℚ :=
  array.insertionSort (sortLe toStr)

/-- A number or `NaN`. -/
inductive Num where
  | nan
  | val (q : ℚ)
  deriving DecidableEq

/-- The string form of an integer-valued number (of magnitude below `10^21`):
its decimal numeral, with a minus sign when negative. -/
def integerToString (q : ℚ) : Str := (toString q.num).toList

/-! ## Data model -/

/-- An entry of the array built by `readTests`. -/
structure TestCase where
  name : Option Str
  input : Str
  answer : Str
  deriving DecidableEq, Repr

/-- The file-system side of `readTests`: `__dirname`, `path.resolve` and
`readFileSync`. -/
structure FileSystem where
  dirname : Str
  resolve : Str → Str → Str
  readFileSync : Str → Except JsError Str

/-- The separator of the lines of a tests file. -/
def CRLF : Str := ['\r', '\n']

/-! ## `readTests` -/

/-- The body of the loop of `readTests` (lines 208-231): `tests` is the array
built so far, the result is the array after the line was handled. -/
def readTestsLine (tests : List TestCase) (line : Str) : Except JsError (List TestCase) :=
  let split := strSplit line ['=']
  -- `switch (split.length)`: `name` and `text` stay `undefined` without a match
  let nameText : Option Str × Option Str :=
    match split with
    | [t] => (none, some t)
    | [n, t] => (some n, some t)
    | _ => (none, none)
  match nameText.2 with
  | none => .error .typeError
  | some text =>
    let splitText := strSplit text ['-']
    match splitText with
    | [i] => .ok (tests ++ [{ name := nameText.1, input := i, answer := [] }])
    | [i, a] => .ok (tests ++ [{ name := nameText.1, input := i, answer := a }])
    | _ => .ok tests

/-- The loop `for (const line of data.split('\r\n'))` of `readTests`. -/
def readTestsLoop : List Str → List TestCase → Except JsError (List TestCase)
  | [], tests => .ok tests
  | line :: rest, tests =>
    match readTestsLine tests line with
    | .error e => .error e
    | .ok tests => readTestsLoop rest tests

/-- The function `readTests(testsFile)`. -/
def readTests (fs : FileSystem) (testsFile : Str) : Except JsError (List TestCase) :=
  match fs.readFileSync (fs.resolve fs.dirname ('.' :: '/' :: testsFile)) with
  | .error e => .error e
  | .ok data => readTestsLoop (strSplit data CRLF) []

/-! ## `getMedian` -/

/-- The function `getMedian(array)`.  `toStr` is the string conversion of
numbers used by the default sort.  An index outside the array reads
`undefined`, which the arithmetic of the even case turns into `NaN`. -/
def getMedian (toStr : ℚ → Str) (array : List ℚ) : Num :=
  let mid := array.length / 2
  let nums := defaultSort toStr array
  if array.length % 2 ≠ 0 then
    match nums[mid]? with
    | some x => .val x
    | none => .nan
  else
    match (if mid = 0 then none else nums[mid - 1]?), nums[mid]? with
    | some a, some b => .val ((a + b) / 2)
    | _, _ => .nan

/-! ## The outside world: clock and child processes -/

/-- The primitives the runner calls: `performance.now()`, the promisified
`exec` (reduced to the `stdout` it resolves with, or its rejection),
`path.resolve` on one argument, and the string conversion of numbers used by
the default sort.  `σ` is the state of the machine the commands run on. -/
structure Runtime (σ : Type) where
  now : σ → ℚ × σ
  exec : Str → σ → Except JsError Str × σ
  resolve : Str → Str
  numberToString : ℚ → Str

/-- The machine state together with a record of what the program did to it:
every command line handed to `exec` with its outcome, and every clock
reading, oldest first. -/
structure World (σ : Type) where
  machine : σ
  execLog : List (Str × Except JsError Str)
  clockLog : List ℚ

/-- The call `performance.now()`. -/
def performanceNow {σ : Type} (rt : Runtime σ) (w : World σ) : ℚ × World σ :=
  let r := rt.now w.machine
  (r.1, { machine := r.2, execLog := w.execLog, clockLog := w.clockLog ++ [r.1] })

/-- The call `(await ex(commandLine)).stdout`. -/
def ex {σ : Type} (rt : Runtime σ) (commandLine : Str) (w : World σ) :
    Except JsError Str × World σ :=
  let r := rt.exec commandLine w.machine
  (r.1, { machine := r.2, execLog := w.execLog ++ [(commandLine, r.1)], clockLog := w.clockLog })

/-- The step `if (command[0] == ".") command = await resolve(command)`. -/
def resolveCommand {σ : Type} (rt : Runtime σ) (command : Str) : Str :=
  if command.head? = some '.' then rt.resolve command else command

/-! ## `runBaseTest` and `getBaseTime` -/

/-- The function `runBaseTest(baseCommand)`. -/
def runBaseTest {σ : Type} (rt : Runtime σ) (baseCommand : Str) (w : World σ) :
    Except JsError ℚ × World σ :=
  let baseCommand := resolveCommand rt baseCommand
  let (startTime, w) := performanceNow rt w
  match ex rt baseCommand w with
  | (.error e, w) => (.error e, w)
  | (.ok _, w) =>
    let (endTime, w) := performanceNow rt w
    (.ok (endTime - startTime), w)

/-- The loop `for (let i = 0; i < baseTimeRuns; ++i)` of `getBaseTime`.
`baseTimeRuns` is the option value seen through the one operation applied to
it, the test `i < baseTimeRuns`.  The loop need not end (for `Infinity`), so
it runs on fuel; `none` is fuel exhaustion. -/
def getBaseTimeLoop {σ : Type} (rt : Runtime σ) (baseCommand : Str) (baseTimeRuns : Nat → Bool) :
    Nat → Nat → List ℚ → World σ → Option (Except JsError (List ℚ) × World σ)
  | 0, _, _, _ => none
  | fuel + 1, i, runTimes, w =>
    if baseTimeRuns i then
      match runBaseTest rt baseCommand w with
      | (.error e, w) => some (.error e, w)
      | (.ok runTime, w) =>
        getBaseTimeLoop rt baseCommand baseTimeRuns fuel (i + 1) (runTimes ++ [runTime]) w
    else some (.ok runTimes, w)

/-- The function `getBaseTime(baseCommand, baseTimeRuns)`.  The test
`!baseCommand` holds for `undefined` and for the empty string. -/
def getBaseTime {σ : Type} (rt : Runtime σ) (fuel : Nat) (baseCommand : Option Str)
    (baseTimeRuns : Nat → Bool) (w : World σ) : Option (Except JsError Num × World σ) :=
  match baseCommand with
  | none => some (.ok (.val 0), w)
  | some [] => some (.ok (.val 0), w)
  | some (c :: cs) =>
    match getBaseTimeLoop rt (c :: cs) baseTimeRuns fuel 0 [] w with
    | none => none
    | some (.error e, w) => some (.error e, w)
    | some (.ok runTimes, w) => some (.ok (getMedian rt.numberToString runTimes), w)

/-! ## `runTest` and `runTests` -/

/-- The object returned by `runTest`. -/
structure TestOutcome where
  result : Bool
  time : ℚ
  deriving DecidableEq

/-- The function `runTest(command, input, answer)`. -/
def runTest {σ : Type} (rt : Runtime σ) (command input answer : Str) (w : World σ) :
    Except JsError TestOutcome × World σ :=
  let (startTime, w) := performanceNow rt w
  let command := resolveCommand rt command
  match ex rt (command ++ ' ' :: input) w with
  | (.error e, w) => (.error e, w)
  | (.ok stdout, w) =>
    let output := trim stdout
    let (endTime, w) := performanceNow rt w
    (.ok { result := decide (output = answer), time := endTime - startTime }, w)

/-- The local variables `totalTime` and `casesPassed` of `runTests`. -/
structure Tally where
  totalTime : ℚ
  casesPassed : Nat
  deriving DecidableEq

/-- The loop `for (const [i, test] of tests.entries())` of `runTests`. -/
def runTestsLoop {σ : Type} (rt : Runtime σ) (command : Str) (baseTime : ℚ) :
    List TestCase → Tally → World σ → Except JsError Tally × World σ
  | [], tally, w => (.ok tally, w)
  | test :: rest, tally, w =>
    match runTest rt command test.input test.answer w with
    | (.error e, w) => (.error e, w)
    | (.ok r, w) =>
      let roundedTime : ℚ := (mathRound ((r.time - baseTime) * 100) : ℚ) / 100
      runTestsLoop rt command baseTime rest
        { totalTime := tally.totalTime + roundedTime,
          casesPassed := tally.casesPassed + (if r.result then 1 else 0) } w

/-- What a completed call of `runTests` leaves: the value it returns and the
tally `casesPassed` it prints. -/
structure RunSummary where
  casesPassed : Nat
  returned : ℚ
  deriving DecidableEq

/-- The function `runTests(command, tests, baseTime)`. -/
def runTests {σ : Type} (rt : Runtime σ) (command : Str) (tests : List TestCase) (baseTime : ℚ)
    (w : World σ) : Except JsError RunSummary × World σ :=
  match runTestsLoop rt command baseTime tests { totalTime := 0, casesPassed := 0 } w with
  | (.error e, w) => (.error e, w)
  | (.ok tally, w) =>
    (.ok { casesPassed := tally.casesPassed, returned := (mathRound tally.totalTime : ℚ) / 1000 }, w)

/-! ## Reference descriptions of a line of the tests file -/

/-- The text of `s` before its first `c` (all of `s` when it has no `c`). -/
def before (c : Char) (s : Str) : Str := s.takeWhile (fun x => x != c)

/-- The text of `s` after its first `c` (empty when it has no `c`). -/
def after (c : Char) (s : Str) : Str := (s.dropWhile (fun x => x != c)).drop 1

/-- The part of a line that holds input and answer: what follows the first
`=`, or the whole line when there is no `=`. -/
def lineText (line : Str) : Str := if '=' ∈ line then after '=' line else line

/-- The test case a well-formed line stands for: the name is the text before
`=` (absent without `=`), the input is the text up to `-`, the answer is the
text after `-` (empty without `-`). -/
def lineCase (line : Str) : TestCase :=
  { name := if '=' ∈ line then some (before '=' line) else none,
    input := before '-' (lineText line),
    answer := after '-' (lineText line) }

/-- A file system holding the listed files (path, content) under the
directory `/app`; `resolve` joins its two arguments. -/
def filesAt (files : List (Str × Str)) : FileSystem :=
  { dirname := "/app".toList,
    resolve := fun d p => d ++ '/' :: p,
    readFileSync := fun p =>
      match files.lookup p with
      | some data => .ok data
      | none => .error .fsError }

/-- The file system with the single tests file `tests.txt` of content `data`. -/
def oneFile (data : String) : FileSystem :=
  filesAt [("/app/./tests.txt".toList, data.toList)]

/-! ## Reference descriptions of a run -/

/-- Rounding to two decimal places: `round2 x = round (100 x) / 100`. -/
def round2 (x : ℚ) : ℚ := (mathRound (100 * x) : ℚ) / 100

/-- What the logs of the world hold about one completed test case: the
`stdout` its command resolved with and the two clock readings around it. -/
structure CaseRun where
  stdout : Str
  startTime : ℚ
  endTime : ℚ

/-- The command line `runTest` builds for a test case. -/
def commandLine {σ : Type} (rt : Runtime σ) (command : Str) (test : TestCase) : Str :=
  resolveCommand rt command ++ ' ' :: test.input

/-- The median of the values in ascending numeric order: the middle one for
an odd length, the mean of the two middle ones for an even length. -/
def numericMedian (array : List ℚ) : Num :=
  let nums := array.insertionSort (fun a b => a ≤ b)
  let mid := array.length / 2
  if array.length % 2 = 1 then
    match nums[mid]? with
    | some x => .val x
    | none => .nan
  else
    match (if mid = 0 then none else nums[mid - 1]?), nums[mid]? with
    | some a, some b => .val ((a + b) / 2)
    | _, _ => .nan

/-- A machine for examples.  Its state is the list of clock readings still to
come (the clock stays at `0` once the list is used up).  A command line
`fail ...` is rejected with exit code `1`; any other command echoes what
follows its first blank, with a line feed. -/
def echoRuntime : Runtime (List ℚ) :=
  { now := fun s => (s.headD 0, s.tail),
    exec := fun cl s =>
      (if "fail".toList.isPrefixOf cl then .error (.execError 1)
       else .ok (after ' ' cl ++ ['\n']), s),
    resolve := fun c => "/app/".toList ++ c,
    numberToString := integerToString }

/-- The world of `echoRuntime` at the start, with the given clock readings. -/
def startWorld (readings : List ℚ) : World (List ℚ) :=
  { machine := readings, execLog := [], clockLog := [] }

/-- The test case with input `x` and expected answer `x`. -/
def caseXX : TestCase := { name := none, input := ['x'], answer := ['x'] }

/-- The test case with input `x` and expected answer `y`. -/
def caseXY : TestCase := { name := none, input := ['x'], answer := ['y'] }

/-! ## Facts about `split` -/

theorem strSplit_nil (sep : Str) : strSplit [] sep = [[]] := rfl

theorem strSplit_cons_char (c x : Char) (xs : Str) :
    strSplit (x :: xs) [c] =
      if x = c then [] :: strSplit xs [c] else consHead x (strSplit xs [c]) := by
  by_cases h : x = c
  · subst h; simp [strSplit, splitGo, List.isPrefixOf]
  · have h2 : ¬ c = x := fun e => h e.symm
    simp [strSplit, splitGo, List.isPrefixOf, h, h2]

theorem strSplit_ne_nil (s : Str) (c : Char) : strSplit s [c] ≠ [] := by
  induction s with
  | nil => simp [strSplit_nil]
  | cons x xs ih =>
    rw [strSplit_cons_char]
    split
    · simp
    · cases h : strSplit xs [c] <;> simp [consHead]

theorem strSplit_of_not_mem (c : Char) (s : Str) (h : c ∉ s) : strSplit s [c] = [s] := by
  induction s with
  | nil => rfl
  | cons x xs ih =>
    have hx : ¬ x = c := fun e => h (by simp [e])
    have hxs : c ∉ xs := fun e => h (by simp [e])
    rw [strSplit_cons_char, if_neg hx, ih hxs]; rfl

theorem strSplit_append_sep (c : Char) (a b : Str) (h : c ∉ a) :
    strSplit (a ++ c :: b) [c] = a :: strSplit b [c] := by
  induction a with
  | nil => simp [strSplit_cons_char]
  | cons x xs ih =>
    have hx : ¬ x = c := fun e => h (by simp [e])
    have hxs : c ∉ xs := fun e => h (by simp [e])
    rw [List.cons_append, strSplit_cons_char, if_neg hx, ih hxs]; rfl

theorem consHead_length (x : Char) (l : List Str) (h : l ≠ []) :
    (consHead x l).length = l.length := by
  cases l with
  | nil => exact absurd rfl h
  | cons p ps => rfl

theorem strSplit_length (c : Char) (s : Str) : (strSplit s [c]).length = s.count c + 1 := by
  induction s with
  | nil => rfl
  | cons x xs ih =>
    rw [strSplit_cons_char]
    by_cases hx : x = c
    · subst hx; simp [ih]
    · have hx2 : c ≠ x := fun e => hx e.symm
      rw [if_neg hx, consHead_length _ _ (strSplit_ne_nil xs c), ih, List.count_cons_of_ne hx2]

theorem strSplit_parts (c : Char) (s : Str) :
    ∃ q qs, strSplit s [c] = q :: qs ∧ q <+: s ∧ ∀ p ∈ qs, p <:+: s := by
  induction s with
  | nil => exact ⟨[], [], rfl, List.prefix_refl _, by simp⟩
  | cons x xs ih =>
    obtain ⟨q, qs, hq, hpre, hin⟩ := ih
    rw [strSplit_cons_char]
    by_cases hx : x = c
    · rw [if_pos hx, hq]
      refine ⟨[], q :: qs, rfl, List.nil_prefix, ?_⟩
      intro p hp
      rcases List.mem_cons.1 hp with h | h
      · subst h; exact hpre.isInfix.trans (List.suffix_cons x xs).isInfix
      · exact (hin p h).trans (List.suffix_cons x xs).isInfix
    · rw [if_neg hx, hq]
      refine ⟨x :: q, qs, rfl, ?_, ?_⟩
      · obtain ⟨t, ht⟩ := hpre
        exact ⟨t, by simp [ht]⟩
      · intro p hp
        exact (hin p hp).trans (List.suffix_cons x xs).isInfix

theorem strSplit_infix (c : Char) (s p : Str) (h : p ∈ strSplit s [c]) : p <:+: s := by
  obtain ⟨q, qs, hq, hpre, hin⟩ := strSplit_parts c s
  rw [hq] at h
  rcases List.mem_cons.1 h with h | h
  · subst h; exact hpre.isInfix
  · exact hin p h

/-! ### The line separator -/

theorem strSplit_crlf_cons (x y : Char) (rest : Str) :
    strSplit (x :: y :: rest) CRLF =
      if x = '\r' ∧ y = '\n' then [] :: strSplit rest CRLF
      else consHead x (strSplit (y :: rest) CRLF) := by
  by_cases hx : x = '\r'
  · by_cases hy : y = '\n'
    · subst hx; subst hy; simp [strSplit, splitGo, CRLF, List.isPrefixOf]
    · have hy2 : ¬ '\n' = y := fun e => hy e.symm
      subst hx
      simp [strSplit, splitGo, CRLF, List.isPrefixOf, hy, hy2]
  · have hx2 : ¬ '\r' = x := fun e => hx e.symm
    simp [strSplit, splitGo, CRLF, List.isPrefixOf, hx, hx2]

theorem strSplit_crlf_single (x : Char) : strSplit [x] CRLF = [[x]] := by
  by_cases hx : x = '\r'
  · subst hx; simp [strSplit, splitGo, CRLF, List.isPrefixOf, consHead]
  · have hx2 : ¬ '\r' = x := fun e => hx e.symm
    simp [strSplit, splitGo, CRLF, List.isPrefixOf, hx2, consHead]

theorem strSplit_crlf_ne_nil (s : Str) : strSplit s CRLF ≠ [] := by
  induction s with
  | nil => simp [strSplit_nil]
  | cons x xs ih =>
    cases xs with
    | nil => simp [strSplit_crlf_single]
    | cons y rest =>
      rw [strSplit_crlf_cons]
      split
      · simp
      · cases h : strSplit (y :: rest) CRLF <;> simp [consHead]

theorem consHead_append (x : Char) (l m : List Str) (h : l ≠ []) :
    consHead x (l ++ m) = consHead x l ++ m := by
  cases l with
  | nil => exact absurd rfl h
  | cons p ps => rfl

theorem strSplit_append_crlf_aux (n : Nat) :
    ∀ t : Str, t.length ≤ n → strSplit (t ++ CRLF) CRLF = strSplit t CRLF ++ [[]] := by
  induction n with
  | zero =>
    intro t ht
    have : t = [] := List.eq_nil_of_length_eq_zero (Nat.le_zero.1 ht)
    subst this; decide
  | succ n ih =>
    intro t ht
    match t, ht with
    | [], _ => decide
    | [x], _ =>
      have h1 : strSplit ([x] ++ CRLF) CRLF = consHead x (strSplit CRLF CRLF) := by
        show strSplit (x :: '\r' :: ['\n']) CRLF = _
        rw [strSplit_crlf_cons, if_neg (by simp)]; rfl
      rw [h1, strSplit_crlf_single]; rfl
    | x :: y :: rest, ht =>
      have hr : rest.length ≤ n := by simp at ht; omega
      have hy : (y :: rest).length ≤ n := by simp at ht ⊢; omega
      show strSplit (x :: y :: (rest ++ CRLF)) CRLF = _
      rw [strSplit_crlf_cons, strSplit_crlf_cons]
      by_cases h : x = '\r' ∧ y = '\n'
      · rw [if_pos h, if_pos h, ih rest hr]; rfl
      · rw [if_neg h, if_neg h]
        have := ih (y :: rest) hy
        rw [List.cons_append] at this
        rw [this, consHead_append _ _ _ (strSplit_crlf_ne_nil _)]

theorem strSplit_append_crlf (t : Str) :
    strSplit (t ++ CRLF) CRLF = strSplit t CRLF ++ [[]] :=
  strSplit_append_crlf_aux t.length t le_rfl

theorem intercalate_consHead (sep : Str) (x : Char) (l : List Str) (h : l ≠ []) :
    List.intercalate sep (consHead x l) = x :: List.intercalate sep l := by
  match l, h with
  | [p], _ => simp [consHead, List.intercalate]
  | p :: q :: qs, _ => simp [consHead, List.intercalate]

theorem strSplit_crlf_join_aux (n : Nat) :
    ∀ t : Str, t.length ≤ n → List.intercalate CRLF (strSplit t CRLF) = t := by
  induction n with
  | zero =>
    intro t ht
    have : t = [] := List.eq_nil_of_length_eq_zero (Nat.le_zero.1 ht)
    subst this; rfl
  | succ n ih =>
    intro t ht
    match t, ht with
    | [], _ => rfl
    | [x], _ => rw [strSplit_crlf_single]; rfl
    | x :: y :: rest, ht =>
      have hr : rest.length ≤ n := by simp at ht; omega
      have hy : (y :: rest).length ≤ n := by simp at ht ⊢; omega
      rw [strSplit_crlf_cons]
      by_cases h : x = '\r' ∧ y = '\n'
      · rw [if_pos h]
        have := ih rest hr
        cases hs : strSplit rest CRLF with
        | nil => exact absurd hs (strSplit_crlf_ne_nil rest)
        | cons p ps =>
          rw [hs] at this
          obtain ⟨hx, hy2⟩ := h
          subst hx; subst hy2
          simp only [List.intercalate, List.intersperse, List.flatten, List.nil_append] at this ⊢
          rw [this]; rfl
      · rw [if_neg h, intercalate_consHead _ _ _ (strSplit_crlf_ne_nil _), ih _ hy]

/-- Joining the lines of a text with CRLF gives the text back. -/
theorem strSplit_crlf_join (t : Str) : List.intercalate CRLF (strSplit t CRLF) = t :=
  strSplit_crlf_join_aux t.length t le_rfl

/-! ## Facts about the loop of `readTests` -/

theorem mem_split_first (c : Char) (s : Str) (h : c ∈ s) :
    s = before c s ++ c :: after c s ∧ c ∉ before c s := by
  induction s with
  | nil => simp at h
  | cons x xs ih =>
    by_cases hx : x = c
    · subst hx; simp [before, after]
    · have hxs : c ∈ xs := by
        rcases List.mem_cons.1 h with e | e
        · exact absurd e.symm hx
        · exact e
      obtain ⟨h1, h2⟩ := ih hxs
      have hc : ¬ c = x := fun e => hx e.symm
      have hb : (x != c) = true := by simp [hx]
      simp only [before, after] at h1 h2 ⊢
      rw [List.takeWhile_cons, List.dropWhile_cons, if_pos hb, if_pos hb]
      constructor
      · rw [List.cons_append, ← h1]
      · simp only [List.mem_cons, hc, false_or]; exact h2

theorem before_of_not_mem (c : Char) (s : Str) (h : c ∉ s) : before c s = s := by
  induction s with
  | nil => rfl
  | cons x xs ih =>
    have hx : ¬ x = c := fun e => h (by simp [e])
    have hxs : c ∉ xs := fun e => h (by simp [e])
    have hb : (x != c) = true := by simp [hx]
    have := ih hxs
    simp only [before] at this ⊢
    rw [List.takeWhile_cons, if_pos hb, this]

theorem after_of_not_mem (c : Char) (s : Str) (h : c ∉ s) : after c s = [] := by
  induction s with
  | nil => rfl
  | cons x xs ih =>
    have hx : ¬ x = c := fun e => h (by simp [e])
    have hxs : c ∉ xs := fun e => h (by simp [e])
    have hb : (x != c) = true := by simp [hx]
    have := ih hxs
    simp only [after] at this ⊢
    rw [List.dropWhile_cons, if_pos hb, this]

/-- Cutting at a character that occurs at most once gives one or two parts. -/
theorem strSplit_count_le_one (c : Char) (s : Str) (h : s.count c ≤ 1) :
    strSplit s [c] = if c ∈ s then [before c s, after c s] else [s] := by
  by_cases hm : c ∈ s
  · obtain ⟨h1, h2⟩ := mem_split_first c s hm
    have hcount : (after c s).count c = 0 := by
      have : s.count c = (before c s ++ c :: after c s).count c := by rw [← h1]
      rw [List.count_append, List.count_cons_self] at this
      omega
    have h3 : c ∉ after c s := List.count_eq_zero.1 hcount
    rw [if_pos hm]
    conv_lhs => rw [h1]
    rw [strSplit_append_sep c _ _ h2, strSplit_of_not_mem c _ h3]
  · rw [if_neg hm, strSplit_of_not_mem c s hm]

theorem readTestsLine_of_split (tests : List TestCase) (line : Str) (name : Option Str)
    (text i : Str) (rest : List Str)
    (h : strSplit line ['='] = [text] ∧ name = none ∨
      ∃ n, strSplit line ['='] = [n, text] ∧ name = some n)
    (ht : strSplit text ['-'] = i :: rest) :
    readTestsLine tests line =
      .ok (match rest with
        | [] => tests ++ [{ name := name, input := i, answer := [] }]
        | [a] => tests ++ [{ name := name, input := i, answer := a }]
        | _ => tests) := by
  rcases h with ⟨h, hn⟩ | ⟨n, h, hn⟩
  · subst hn
    simp only [readTestsLine, h, ht]
    match rest with
    | [] => rfl
    | [a] => rfl
    | _ :: _ :: _ => rfl
  · subst hn
    simp only [readTestsLine, h, ht]
    match rest with
    | [] => rfl
    | [a] => rfl
    | _ :: _ :: _ => rfl

theorem readTestsLine_wellFormed (tests : List TestCase) (line : Str)
    (h1 : line.count '=' ≤ 1) (h2 : (lineText line).count '-' ≤ 1) :
    readTestsLine tests line = .ok (tests ++ [lineCase line]) := by
  have hs := strSplit_count_le_one '=' line h1
  have ht := strSplit_count_le_one '-' (lineText line) h2
  have hsplit : strSplit line ['='] = [lineText line] ∧
        (if '=' ∈ line then some (before '=' line) else none) = none ∨
      ∃ n, strSplit line ['='] = [n, lineText line] ∧
        (if '=' ∈ line then some (before '=' line) else none) = some n := by
    by_cases hm : '=' ∈ line
    · right; exact ⟨before '=' line, by rw [hs, if_pos hm, lineText, if_pos hm], by rw [if_pos hm]⟩
    · left; exact ⟨by rw [hs, if_neg hm, lineText, if_neg hm], by rw [if_neg hm]⟩
  by_cases hd : '-' ∈ lineText line
  · rw [if_pos hd] at ht
    rw [readTestsLine_of_split tests line _ _ _ _ hsplit ht]
    rfl
  · rw [if_neg hd] at ht
    rw [readTestsLine_of_split tests line _ _ _ _ hsplit ht]
    simp [lineCase, before_of_not_mem _ _ hd, after_of_not_mem _ _ hd]

theorem readTestsLine_many_eq (tests : List TestCase) (line : Str) (h : 2 ≤ line.count '=') :
    readTestsLine tests line = .error .typeError := by
  have hl := strSplit_length '=' line
  unfold readTestsLine
  match hs : strSplit line ['='] with
  | [] => rfl
  | [_] => exfalso; rw [hs] at hl; simp at hl; omega
  | [_, _] => exfalso; rw [hs] at hl; simp at hl; omega
  | _ :: _ :: _ :: _ => rfl

theorem readTestsLine_error (tests : List TestCase) (line : Str) (e : JsError)
    (h : readTestsLine tests line = .error e) : e = .typeError := by
  unfold readTestsLine at h
  generalize strSplit line ['='] = sp at h
  match sp, h with
  | [], h => injection h with h; exact h.symm
  | [t], h =>
    simp only [] at h
    generalize strSplit t ['-'] = st at h
    match st, h with
    | [], h => cases h
    | [_], h => cases h
    | [_, _], h => cases h
    | _ :: _ :: _ :: _, h => cases h
  | [n, t], h =>
    simp only [] at h
    generalize strSplit t ['-'] = st at h
    match st, h with
    | [], h => cases h
    | [_], h => cases h
    | [_, _], h => cases h
    | _ :: _ :: _ :: _, h => cases h
  | _ :: _ :: _ :: _, h => injection h with h; exact h.symm

theorem readTestsLoop_append (l1 l2 : List Str) (tests : List TestCase) :
    readTestsLoop (l1 ++ l2) tests = (readTestsLoop l1 tests).bind (readTestsLoop l2) := by
  induction l1 generalizing tests with
  | nil => rfl
  | cons line rest ih =>
    simp only [List.cons_append, readTestsLoop]
    cases readTestsLine tests line with
    | error e => rfl
    | ok t => exact ih t

theorem readTestsLoop_error (lines : List Str) (tests : List TestCase) (e : JsError)
    (h : readTestsLoop lines tests = .error e) : e = .typeError := by
  induction lines generalizing tests with
  | nil => cases h
  | cons line rest ih =>
    simp only [readTestsLoop] at h
    cases hl : readTestsLine tests line with
    | error e2 =>
      rw [hl] at h
      injection h with h
      subst h
      exact readTestsLine_error _ _ _ hl
    | ok t => rw [hl] at h; exact ih t h

theorem readTestsLoop_many_eq (lines : List Str) (tests : List TestCase)
    (h : ∃ line ∈ lines, 2 ≤ line.count '=') :
    readTestsLoop lines tests = .error .typeError := by
  induction lines generalizing tests with
  | nil => simp at h
  | cons line rest ih =>
    simp only [readTestsLoop]
    cases hl : readTestsLine tests line with
    | error e => rw [readTestsLine_error _ _ _ hl]
    | ok t =>
      obtain ⟨l, hmem, hc⟩ := h
      rcases List.mem_cons.1 hmem with e | hmem
      · subst e; rw [readTestsLine_many_eq tests l hc] at hl; cases hl
      · exact ih t ⟨l, hmem, hc⟩

theorem readTestsLoop_wellFormed (lines : List Str) (tests : List TestCase)
    (h : ∀ line ∈ lines, line.count '=' ≤ 1 ∧ (lineText line).count '-' ≤ 1) :
    readTestsLoop lines tests = .ok (tests ++ lines.map lineCase) := by
  induction lines generalizing tests with
  | nil => simp [readTestsLoop]
  | cons line rest ih =>
    have h1 := h line (by simp)
    simp only [readTestsLoop, readTestsLine_wellFormed tests line h1.1 h1.2]
    rw [ih _ (fun l hl => h l (by simp [hl]))]
    simp

theorem readTestsLine_cases (tests : List TestCase) (line : Str) (out : List TestCase)
    (h : readTestsLine tests line = .ok out) :
    out = tests ∨ ∃ t, out = tests ++ [t] ∧ t.input <:+: line ∧ t.answer <:+: line := by
  unfold readTestsLine at h
  have hin := strSplit_infix '=' line
  generalize strSplit line ['='] = sp at h hin
  have key : ∀ (name : Option Str) (text : Str), text <:+: line →
      ((match strSplit text ['-'] with
        | [i] => Except.ok (tests ++ [{ name := name, input := i, answer := [] }])
        | [i, a] => Except.ok (tests ++ [{ name := name, input := i, answer := a }])
        | _ => Except.ok tests) : Except JsError (List TestCase)) = Except.ok out →
      out = tests ∨ ∃ t, out = tests ++ [t] ∧ t.input <:+: line ∧ t.answer <:+: line := by
    intro name text htext h
    have hin2 := strSplit_infix '-' text
    generalize strSplit text ['-'] = st at h hin2
    match st, h with
    | [], h => injection h with h; exact Or.inl h.symm
    | [i], h =>
      injection h with h
      exact Or.inr ⟨_, h.symm, (hin2 i (by simp)).trans htext, List.nil_infix⟩
    | [i, a], h =>
      injection h with h
      exact Or.inr ⟨_, h.symm, (hin2 i (by simp)).trans htext, (hin2 a (by simp)).trans htext⟩
    | _ :: _ :: _ :: _, h => injection h with h; exact Or.inl h.symm
  match sp, h with
  | [], h => cases h
  | [t], h => exact key none t (hin t (by simp)) h
  | [n, t], h => exact key (some n) t (hin t (by simp)) h
  | _ :: _ :: _ :: _, h => cases h

theorem readTestsLoop_cases (lines : List Str) (tests out : List TestCase)
    (h : readTestsLoop lines tests = .ok out) :
    ∃ (new : List TestCase) (src : List Str), out = tests ++ new ∧ src.Sublist lines ∧
      List.Forall₂ (fun t line => t.input <:+: line ∧ t.answer <:+: line) new src := by
  induction lines generalizing tests with
  | nil =>
    injection h with h
    exact ⟨[], [], by simp [h], List.Sublist.slnil, List.Forall₂.nil⟩
  | cons line rest ih =>
    simp only [readTestsLoop] at h
    cases hl : readTestsLine tests line with
    | error e => rw [hl] at h; cases h
    | ok mid =>
      rw [hl] at h
      obtain ⟨new, src, hout, hsub, hall⟩ := ih mid h
      rcases readTestsLine_cases tests line mid hl with hm | ⟨t, hm, hi, ha⟩
      · subst hm
        exact ⟨new, src, hout, hsub.cons line, hall⟩
      · subst hm
        refine ⟨t :: new, line :: src, by simp [hout], hsub.cons₂ line, ?_⟩
        exact List.Forall₂.cons ⟨hi, ha⟩ hall

/-! ## The claims on `readTests` -/

/-- C1 (counterexample): the line `a=1-2-3`, whose answer part `2-3` holds a
second `-`, does not yield the test case with name `a`, input `1` and answer
`2-3`; it yields no test case at all. -/
theorem readTests_second_dash_counterexample :
    ('=' ∉ "a".toList ∧ '-' ∉ "1".toList ∧ '=' ∉ "1".toList ∧ '=' ∉ "2-3".toList ∧
      ¬ CRLF <:+: "2-3".toList) ∧
    readTests (oneFile "a=1-2-3") "tests.txt".toList ≠
      .ok [{ name := some "a".toList, input := "1".toList, answer := "2-3".toList }] ∧
    readTests (oneFile "a=1-2-3") "tests.txt".toList = .ok [] := by
  decide

/-- C1 (amended): `readTests` cuts the text after the name at every `-`.  For
a line `n=i-a` of the file, with no `=` in `n`, `i`, `a` and no `-` in `i`, the
line yields exactly the test case with name `n`, input `i` and answer `a` when
`a` has no `-`, and no test case when `a` has a `-`: the result of the file is
that of the lines before, then this contribution, then the lines after. -/
theorem readTests_line_yields (fs : FileSystem) (testsFile data : Str) (pre post : List Str)
    (n i a : Str)
    (hread : fs.readFileSync (fs.resolve fs.dirname ('.' :: '/' :: testsFile)) = .ok data)
    (hline : strSplit data CRLF = pre ++ (n ++ '=' :: (i ++ '-' :: a)) :: post)
    (hn : '=' ∉ n) (hi : '-' ∉ i ∧ '=' ∉ i) (ha : '=' ∉ a) :
    readTests fs testsFile =
      (readTestsLoop pre []).bind (fun tests =>
        readTestsLoop post
          (if '-' ∈ a then tests else tests ++ [{ name := some n, input := i, answer := a }])) := by
  have htext : '=' ∉ i ++ '-' :: a := by
    simp only [List.mem_append, List.mem_cons, not_or]
    exact ⟨hi.2, by decide, ha⟩
  have hs : strSplit (n ++ '=' :: (i ++ '-' :: a)) ['='] = [n, i ++ '-' :: a] := by
    rw [strSplit_append_sep _ _ _ hn, strSplit_of_not_mem _ _ htext]
  obtain ⟨q, qs, hq, -, -⟩ := strSplit_parts '-' a
  have hst : strSplit (i ++ '-' :: a) ['-'] = i :: q :: qs := by
    rw [strSplit_append_sep _ _ _ hi.1, hq]
  have hbody : ∀ tests, readTestsLine tests (n ++ '=' :: (i ++ '-' :: a)) =
      .ok (if '-' ∈ a then tests else tests ++ [{ name := some n, input := i, answer := a }]) := by
    intro tests
    rw [readTestsLine_of_split tests _ (some n) _ i (q :: qs) (Or.inr ⟨n, hs, rfl⟩) hst]
    by_cases hd : '-' ∈ a
    · rw [if_pos hd]
      have hlen := strSplit_length '-' a
      have hpos : 0 < a.count '-' := List.count_pos_iff.2 hd
      rw [hq] at hlen
      match qs, hlen with
      | [], hlen => simp at hlen; omega
      | _ :: _, _ => rfl
    · rw [if_neg hd]
      rw [strSplit_of_not_mem _ _ hd] at hq
      injection hq with h1 h2
      subst h1; subst h2; rfl
  simp only [readTests, hread, hline, readTestsLoop_append, readTestsLoop, hbody]

/-- C1 (witness): the file `x`, `a=1-2`, `y-z`. -/
theorem readTests_line_yields_witness :
    readTests (oneFile "x\r\na=1-2\r\ny-z") "tests.txt".toList =
      (readTestsLoop ["x".toList] []).bind (fun tests =>
        readTestsLoop ["y-z".toList]
          (if '-' ∈ "2".toList then tests
           else tests ++ [{ name := some "a".toList, input := "1".toList, answer := "2".toList }])) :=
  readTests_line_yields (oneFile "x\r\na=1-2\r\ny-z") "tests.txt".toList
    "x\r\na=1-2\r\ny-z".toList ["x".toList] ["y-z".toList] "a".toList "1".toList "2".toList
    (by decide) (by decide) (by decide) (by decide) (by decide)

/-- C2 (the code at the failing input, in general): a file with a line that
holds two or more `=` makes `readTests` raise a `TypeError`; the line is not
skipped and no list is returned. -/
theorem readTests_raises_on_second_eq (fs : FileSystem) (testsFile data : Str)
    (hread : fs.readFileSync (fs.resolve fs.dirname ('.' :: '/' :: testsFile)) = .ok data)
    (h : ∃ line ∈ strSplit data CRLF, 2 ≤ line.count '=') :
    readTests fs testsFile = .error .typeError := by
  simp only [readTests, hread]
  exact readTestsLoop_many_eq _ _ h

/-- C2 (witness): the one-line file `a=b=c`. -/
theorem readTests_raises_on_second_eq_witness :
    readTests (oneFile "a=b=c") "tests.txt".toList = .error .typeError :=
  readTests_raises_on_second_eq (oneFile "a=b=c") "tests.txt".toList "a=b=c".toList
    (by decide) ⟨"a=b=c".toList, by decide, by decide⟩

/-- C4: when every line of the file has at most one `=` and, after it (or in
the whole line without `=`), at most one `-`, `readTests` returns one test case
per line, in line order: the name is the text before `=` (absent without `=`),
the input the text up to `-`, the answer the text after `-` (empty without
`-`). -/
theorem readTests_wellFormed (fs : FileSystem) (testsFile data : Str)
    (hread : fs.readFileSync (fs.resolve fs.dirname ('.' :: '/' :: testsFile)) = .ok data)
    (h : ∀ line ∈ strSplit data CRLF, line.count '=' ≤ 1 ∧ (lineText line).count '-' ≤ 1) :
    readTests fs testsFile = .ok ((strSplit data CRLF).map lineCase) := by
  simp only [readTests, hread]
  rw [readTestsLoop_wellFormed _ _ h]
  simp

/-- C4 (witness): the text `a=1-2`, `b-3` of the claim, with its result. -/
theorem readTests_wellFormed_witness :
    readTests (oneFile "a=1-2\r\nb-3") "tests.txt".toList =
        .ok ((strSplit "a=1-2\r\nb-3".toList CRLF).map lineCase) ∧
      (strSplit "a=1-2\r\nb-3".toList CRLF).map lineCase =
        [{ name := some "a".toList, input := "1".toList, answer := "2".toList },
         { name := none, input := "b".toList, answer := "3".toList }] :=
  ⟨readTests_wellFormed (oneFile "a=1-2\r\nb-3") "tests.txt".toList "a=1-2\r\nb-3".toList
    (by decide) (by decide), by decide⟩

/-- C9: when `readTests` returns, it returns at most as many test cases as the
file has lines, and the test cases come, in order, from lines of the file
taken in order, the input and the answer of each being contiguous pieces of
its line. -/
theorem readTests_cases_from_lines (fs : FileSystem) (testsFile data : Str)
    (tests : List TestCase)
    (hread : fs.readFileSync (fs.resolve fs.dirname ('.' :: '/' :: testsFile)) = .ok data)
    (h : readTests fs testsFile = .ok tests) :
    tests.length ≤ (strSplit data CRLF).length ∧
    ∃ src : List Str, src.Sublist (strSplit data CRLF) ∧
      List.Forall₂ (fun t line => t.input <:+: line ∧ t.answer <:+: line) tests src := by
  simp only [readTests, hread] at h
  obtain ⟨new, src, hout, hsub, hall⟩ := readTestsLoop_cases _ _ _ h
  simp only [List.nil_append] at hout
  subst hout
  refine ⟨?_, src, hsub, hall⟩
  rw [hall.length_eq]
  exact hsub.length_le

/-- C9 (witness): a file of three lines, the second of which is skipped. -/
theorem readTests_cases_from_lines_witness :
    [({ name := some "a".toList, input := "1".toList, answer := "2".toList } : TestCase),
      { name := none, input := "b".toList, answer := "3".toList }].length ≤
      (strSplit "a=1-2\r\nx-y-z\r\nb-3".toList CRLF).length ∧
    ∃ src : List Str, src.Sublist (strSplit "a=1-2\r\nx-y-z\r\nb-3".toList CRLF) ∧
      List.Forall₂ (fun t line => t.input <:+: line ∧ t.answer <:+: line)
        [({ name := some "a".toList, input := "1".toList, answer := "2".toList } : TestCase),
          { name := none, input := "b".toList, answer := "3".toList }] src :=
  readTests_cases_from_lines (oneFile "a=1-2\r\nx-y-z\r\nb-3") "tests.txt".toList
    "a=1-2\r\nx-y-z\r\nb-3".toList _ (by decide) (by decide)

/-- C10: an empty line is not skipped.  When `readTests` returns `tests` on
the text `t`, it returns `tests` followed by the test case without name, with
empty input and empty answer, on `t` followed by one CRLF; and on the empty
file it returns that one test case. -/
theorem readTests_trailing_crlf (fs : FileSystem) (file1 file2 file0 t : Str)
    (tests : List TestCase)
    (h1 : fs.readFileSync (fs.resolve fs.dirname ('.' :: '/' :: file1)) = .ok t)
    (h2 : fs.readFileSync (fs.resolve fs.dirname ('.' :: '/' :: file2)) = .ok (t ++ CRLF))
    (h0 : fs.readFileSync (fs.resolve fs.dirname ('.' :: '/' :: file0)) = .ok [])
    (h : readTests fs file1 = .ok tests) :
    readTests fs file2 = .ok (tests ++ [{ name := none, input := [], answer := [] }]) ∧
    readTests fs file0 = .ok [{ name := none, input := [], answer := [] }] := by
  constructor
  · simp only [readTests, h1] at h
    simp only [readTests, h2, strSplit_append_crlf, readTestsLoop_append, h]
    rfl
  · simp only [readTests, h0]
    rfl

/-- C10 (witness): the files `a=1-2`, the same followed by CRLF, and the
empty file. -/
theorem readTests_trailing_crlf_witness :
    readTests (filesAt [("/app/./one".toList, "a=1-2".toList),
        ("/app/./two".toList, "a=1-2\r\n".toList), ("/app/./none".toList, [])]) "two".toList =
      .ok ([{ name := some "a".toList, input := "1".toList, answer := "2".toList }] ++
        [{ name := none, input := [], answer := [] }]) ∧
    readTests (filesAt [("/app/./one".toList, "a=1-2".toList),
        ("/app/./two".toList, "a=1-2\r\n".toList), ("/app/./none".toList, [])]) "none".toList =
      .ok [{ name := none, input := [], answer := [] }] :=
  readTests_trailing_crlf _ "one".toList "two".toList "none".toList "a=1-2".toList _
    (by decide) (by decide) (by decide) (by decide)

/-! ## Facts about `runTest` and the loop of `runTests` -/

theorem runTest_ok {σ : Type} (rt : Runtime σ) (command input answer : Str) (w w' : World σ)
    (r : TestOutcome) (h : runTest rt command input answer w = (.ok r, w')) :
    ∃ run : CaseRun,
      w'.execLog = w.execLog ++ [(resolveCommand rt command ++ ' ' :: input, .ok run.stdout)] ∧
      w'.clockLog = w.clockLog ++ [run.startTime, run.endTime] ∧
      r.result = decide (trim run.stdout = answer) ∧
      r.time = run.endTime - run.startTime := by
  unfold runTest at h
  simp only [ex, performanceNow] at h
  cases hx : (rt.exec (resolveCommand rt command ++ ' ' :: input) (rt.now w.machine).2).1 with
  | error e => simp [hx] at h
  | ok out =>
    simp only [hx, Prod.mk.injEq, Except.ok.injEq] at h
    obtain ⟨hr, hw⟩ := h
    subst hr; subst hw
    exact ⟨⟨out, (rt.now w.machine).1, _⟩, rfl, by simp, rfl, rfl⟩

theorem runTest_error {σ : Type} (rt : Runtime σ) (command input answer : Str) (w w' : World σ)
    (e : JsError) :
    runTest rt command input answer w = (.error e, w') ↔
      ex rt (resolveCommand rt command ++ ' ' :: input) (performanceNow rt w).2 = (.error e, w') := by
  unfold runTest
  simp only []
  cases hx : ex rt (resolveCommand rt command ++ ' ' :: input) (performanceNow rt w).2 with
  | mk res w2 =>
    cases res with
    | error e2 => simp
    | ok out => simp

theorem runTestsLoop_ok {σ : Type} (rt : Runtime σ) (command : Str) (baseTime : ℚ)
    (tests : List TestCase) (tally tally' : Tally) (w w' : World σ)
    (h : runTestsLoop rt command baseTime tests tally w = (.ok tally', w')) :
    ∃ runs : List CaseRun, runs.length = tests.length ∧
      w'.execLog = w.execLog ++
        List.zipWith (fun t r => (commandLine rt command t, Except.ok r.stdout)) tests runs ∧
      w'.clockLog = w.clockLog ++ runs.flatMap (fun r => [r.startTime, r.endTime]) ∧
      tally'.casesPassed = tally.casesPassed +
        (List.zip tests runs).countP (fun p => decide (trim p.2.stdout = p.1.answer)) ∧
      tally'.totalTime = tally.totalTime +
        (runs.map (fun r => round2 (r.endTime - r.startTime - baseTime))).sum := by
  induction tests generalizing tally w with
  | nil =>
    simp only [runTestsLoop, Prod.mk.injEq, Except.ok.injEq] at h
    obtain ⟨h1, h2⟩ := h
    subst h1; subst h2
    exact ⟨[], by simp⟩
  | cons t rest ih =>
    simp only [runTestsLoop] at h
    cases hr : runTest rt command t.input t.answer w with
    | mk res w2 =>
      cases res with
      | error e => simp [hr] at h
      | ok r =>
        simp only [hr] at h
        obtain ⟨run, hx, hc, hres, htime⟩ := runTest_ok rt command t.input t.answer w w2 r hr
        obtain ⟨runs, hlen, hx2, hc2, hp, ht⟩ := ih _ _ h
        refine ⟨run :: runs, by simp [hlen], ?_, ?_, ?_, ?_⟩
        · rw [hx2, hx]; simp [commandLine]
        · rw [hc2, hc]; simp
        · rw [hp, hres, List.zip_cons_cons, List.countP_cons]
          simp only []
          by_cases hd : trim run.stdout = t.answer
          · simp [hd]; omega
          · simp [hd]
        · rw [ht, htime]
          simp only [List.map_cons, List.sum_cons, round2]
          rw [mul_comm (100 : ℚ)]
          ring

theorem runTestsLoop_error {σ : Type} (rt : Runtime σ) (command : Str) (baseTime : ℚ)
    (tests : List TestCase) (tally : Tally) (w w' : World σ) (e : JsError) :
    runTestsLoop rt command baseTime tests tally w = (.error e, w') ↔
      ∃ (pre : List TestCase) (t : TestCase) (post : List TestCase) (mid : Tally)
        (wmid : World σ),
        tests = pre ++ t :: post ∧
        runTestsLoop rt command baseTime pre tally w = (.ok mid, wmid) ∧
        ex rt (commandLine rt command t) (performanceNow rt wmid).2 = (.error e, w') := by
  induction tests generalizing tally w with
  | nil =>
    constructor
    · intro h; simp [runTestsLoop] at h
    · rintro ⟨pre, t, post, mid, wmid, h, -, -⟩; simp at h
  | cons t rest ih =>
    constructor
    · intro h
      simp only [runTestsLoop] at h
      cases hr : runTest rt command t.input t.answer w with
      | mk res w2 =>
        cases res with
        | error e2 =>
          simp only [hr, Prod.mk.injEq, Except.error.injEq] at h
          obtain ⟨h1, h2⟩ := h
          subst h1; subst h2
          exact ⟨[], t, rest, tally, w, rfl, rfl, (runTest_error _ _ _ _ _ _ _).1 hr⟩
        | ok r =>
          simp only [hr] at h
          obtain ⟨pre, t2, post, mid, wmid, hl, hpre, hex⟩ := (ih _ _).1 h
          refine ⟨t :: pre, t2, post, mid, wmid, by simp [hl], ?_, hex⟩
          simp only [runTestsLoop, hr]
          exact hpre
    · rintro ⟨pre, t2, post, mid, wmid, hl, hpre, hex⟩
      cases pre with
      | nil =>
        simp only [List.nil_append, List.cons.injEq] at hl
        obtain ⟨h1, h2⟩ := hl
        subst h1; subst h2
        simp only [runTestsLoop, Prod.mk.injEq, Except.ok.injEq] at hpre
        obtain ⟨h1, h2⟩ := hpre
        subst h1; subst h2
        have := (runTest_error rt command t.input t.answer w w' e).2 hex
        simp only [runTestsLoop, this]
      | cons p pre =>
        simp only [List.cons_append, List.cons.injEq] at hl
        obtain ⟨h1, h2⟩ := hl
        subst h1
        simp only [runTestsLoop] at hpre ⊢
        cases hr : runTest rt command t.input t.answer w with
        | mk res w2 =>
          cases res with
          | error e2 => simp [hr] at hpre
          | ok r =>
            simp only [hr] at hpre ⊢
            exact (ih _ _).2 ⟨pre, t2, post, mid, wmid, h2, hpre, hex⟩

theorem mathRound_intCast (n : ℤ) : mathRound (n : ℚ) = n := by
  unfold mathRound
  rw [Int.floor_eq_iff]
  constructor <;> norm_num

theorem round2_neg_iff (x : ℚ) : round2 x < 0 ↔ x < -1 / 200 := by
  unfold round2 mathRound
  have h100 : (0 : ℚ) < 100 := by norm_num
  rw [div_neg_iff]
  constructor
  · rintro (⟨h, _⟩ | ⟨h, -⟩)
    · exact absurd h100 (not_lt.2 (by linarith))
    · have h1 : ⌊100 * x + 1 / 2⌋ < 0 := by exact_mod_cast h
      have h2 := Int.floor_lt.1 h1
      push_cast at h2
      linarith
  · intro h
    right
    refine ⟨?_, h100⟩
    have h1 : ⌊100 * x + 1 / 2⌋ < 0 := by
      rw [Int.floor_lt]; push_cast; linarith
    exact_mod_cast h1

theorem round2_nonpos (x : ℚ) (h : x < 0) : round2 x ≤ 0 := by
  unfold round2 mathRound
  have h1 : ⌊100 * x + 1 / 2⌋ < 1 := by
    rw [Int.floor_lt]; push_cast; linarith
  have h2 : ⌊100 * x + 1 / 2⌋ ≤ 0 := by omega
  have h3 : ((⌊100 * x + 1 / 2⌋ : ℤ) : ℚ) ≤ 0 := by exact_mod_cast h2
  exact div_nonpos_of_nonpos_of_nonneg h3 (by norm_num)

theorem runTests_ok {σ : Type} (rt : Runtime σ) (command : Str) (tests : List TestCase)
    (baseTime : ℚ) (w w' : World σ) (r : RunSummary)
    (h : runTests rt command tests baseTime w = (.ok r, w')) :
    ∃ runs : List CaseRun, runs.length = tests.length ∧
      w'.execLog = w.execLog ++
        List.zipWith (fun t c => (commandLine rt command t, Except.ok c.stdout)) tests runs ∧
      w'.clockLog = w.clockLog ++ runs.flatMap (fun c => [c.startTime, c.endTime]) ∧
      r.casesPassed =
        (List.zip tests runs).countP (fun p => decide (trim p.2.stdout = p.1.answer)) ∧
      r.returned = (mathRound
        ((runs.map (fun c => round2 (c.endTime - c.startTime - baseTime))).sum) : ℚ) / 1000 := by
  unfold runTests at h
  cases hl : runTestsLoop rt command baseTime tests { totalTime := 0, casesPassed := 0 } w with
  | mk res w2 =>
    cases res with
    | error e => simp [hl] at h
    | ok tally =>
      simp only [hl, Prod.mk.injEq, Except.ok.injEq] at h
      obtain ⟨hr, hw⟩ := h
      subst hr; subst hw
      obtain ⟨runs, hlen, hx, hc, hp, ht⟩ := runTestsLoop_ok rt command baseTime tests _ _ _ _ hl
      refine ⟨runs, hlen, hx, hc, ?_, ?_⟩
      · simpa using hp
      · simp only [zero_add] at ht
        simp only [ht]

/-! ## The claims on `getMedian`, `runTests` and `getBaseTime` -/

/-- C3 (the code at the failing input): on the array `[2, 10, 3]`, whose
median is `3`, `getMedian` returns `2`, the default sort having put `10`
before `2`.  On the two arrays of the specification it returns `2` and
`2.5`. -/
theorem getMedian_sorts_by_string :
    getMedian integerToString [2, 10, 3] = .val 2 ∧ numericMedian [2, 10, 3] = .val 3 ∧
    defaultSort integerToString [2, 10, 3] = [10, 2, 3] ∧
    getMedian integerToString [3, 1, 2] = .val 2 ∧
    getMedian integerToString [4, 1, 3, 2] = .val (5 / 2) := by
  refine ⟨by decide, by decide, by decide, by decide, ?_⟩
  have h : getMedian integerToString [4, 1, 3, 2] = .val ((2 + 3) / 2) := rfl
  rw [h]; norm_num

/-- C5: when `runTests` completes, every test case has been executed once, in
order, with the command line made of the command, a blank and its input, and
`casesPassed` is the number of test cases whose `stdout`, trimmed, equals the
answer of the case; so `0 ≤ casesPassed ≤ tests.length`. -/
theorem runTests_casesPassed {σ : Type} (rt : Runtime σ) (command : Str)
    (tests : List TestCase) (baseTime : ℚ) (w w' : World σ) (r : RunSummary)
    (h : runTests rt command tests baseTime w = (.ok r, w')) :
    ∃ runs : List CaseRun, runs.length = tests.length ∧
      w'.execLog = w.execLog ++
        List.zipWith (fun t c => (commandLine rt command t, Except.ok c.stdout)) tests runs ∧
      r.casesPassed =
        (List.zip tests runs).countP (fun p => decide (trim p.2.stdout = p.1.answer)) ∧
      0 ≤ r.casesPassed ∧ r.casesPassed ≤ tests.length := by
  obtain ⟨runs, hlen, hx, -, hp, -⟩ := runTests_ok rt command tests baseTime w w' r h
  refine ⟨runs, hlen, hx, hp, Nat.zero_le _, ?_⟩
  rw [hp]
  calc (List.zip tests runs).countP _ ≤ (List.zip tests runs).length := List.countP_le_length _
    _ ≤ tests.length := by simp [List.length_zip]

/-- C5 (witness): with the echoing command, the case with input `x` and answer
`x` gives `casesPassed = 1`, and the case with input `x` and answer `y` gives
`casesPassed = 0`. -/
theorem runTests_casesPassed_witness :
    (∃ runs : List CaseRun, runs.length = [caseXX].length ∧
      [("echo x".toList, (Except.ok "x\n".toList : Except JsError Str))] =
        [] ++ List.zipWith
          (fun t c => (commandLine echoRuntime "echo".toList t, Except.ok c.stdout))
          [caseXX] runs ∧
      1 = (List.zip [caseXX] runs).countP (fun p => decide (trim p.2.stdout = p.1.answer)) ∧
      0 ≤ 1 ∧ 1 ≤ [caseXX].length) ∧
    (∃ runs : List CaseRun, runs.length = [caseXY].length ∧
      [("echo x".toList, (Except.ok "x\n".toList : Except JsError Str))] =
        [] ++ List.zipWith
          (fun t c => (commandLine echoRuntime "echo".toList t, Except.ok c.stdout))
          [caseXY] runs ∧
      0 = (List.zip [caseXY] runs).countP (fun p => decide (trim p.2.stdout = p.1.answer)) ∧
      0 ≤ 0 ∧ 0 ≤ [caseXY].length) :=
  ⟨runTests_casesPassed echoRuntime "echo".toList [caseXX] 0 (startWorld [0, 1])
      { machine := [], execLog := [("echo x".toList, .ok "x\n".toList)], clockLog := [0, 1] }
      { casesPassed := 1, returned := 1 / 1000 }
      (by
        simp [runTests, runTestsLoop, runTest, ex, performanceNow, echoRuntime, startWorld,
          resolveCommand, trim, after, isTrimChar, caseXX]
        have h1 : mathRound 100 = 100 := mathRound_intCast 100
        have h2 : mathRound 1 = 1 := mathRound_intCast 1
        rw [h1]; norm_num [h2]),
    runTests_casesPassed echoRuntime "echo".toList [caseXY] 0 (startWorld [0, 1])
      { machine := [], execLog := [("echo x".toList, .ok "x\n".toList)], clockLog := [0, 1] }
      { casesPassed := 0, returned := 1 / 1000 }
      (by
        simp [runTests, runTestsLoop, runTest, ex, performanceNow, echoRuntime, startWorld,
          resolveCommand, trim, after, isTrimChar, caseXY]
        have h1 : mathRound 100 = 100 := mathRound_intCast 100
        have h2 : mathRound 1 = 1 := mathRound_intCast 1
        rw [h1]; norm_num [h2])⟩

/-- C6 (counterexample): one case with elapsed time `0` and base time `0.001`.
The elapsed time is below the base time, yet the value that enters the sum,
`round2 (0 - 0.001)`, is `0` and not negative; the run returns `0`. -/
theorem runTests_small_negative_counterexample :
    runTests echoRuntime "echo".toList [caseXX] (1 / 1000) (startWorld []) =
      (.ok { casesPassed := 1, returned := 0 },
       { machine := [], execLog := [("echo x".toList, .ok "x\n".toList)],
         clockLog := [0, 0] }) ∧
    (0 : ℚ) - 0 < 1 / 1000 ∧ ¬ round2 (0 - 0 - 1 / 1000) < 0 := by
  refine ⟨?_, by norm_num, ?_⟩
  · simp [runTests, runTestsLoop, runTest, ex, performanceNow, echoRuntime, startWorld,
      resolveCommand, trim, after, isTrimChar, caseXX]
    norm_num [mathRound]
  · rw [round2_neg_iff]; norm_num

/-- C6 (amended): when `runTests` completes, the clock has been read twice per
test case, `startTime` and `endTime`, and the value returned is
`round (Σ round2 (endTime - startTime - baseTime)) / 1000`.  No term of the
sum is clamped: for an elapsed time below the base time the term is at most
`0`, and it is negative exactly when the elapsed time is more than `0.005`
below the base time. -/
theorem runTests_returned {σ : Type} (rt : Runtime σ) (command : Str)
    (tests : List TestCase) (baseTime : ℚ) (w w' : World σ) (r : RunSummary)
    (h : runTests rt command tests baseTime w = (.ok r, w')) :
    ∃ runs : List CaseRun, runs.length = tests.length ∧
      w'.clockLog = w.clockLog ++ runs.flatMap (fun c => [c.startTime, c.endTime]) ∧
      r.returned = (mathRound
        ((runs.map (fun c => round2 (c.endTime - c.startTime - baseTime))).sum) : ℚ) / 1000 ∧
      ∀ c ∈ runs,
        (c.endTime - c.startTime < baseTime →
          round2 (c.endTime - c.startTime - baseTime) ≤ 0) ∧
        (round2 (c.endTime - c.startTime - baseTime) < 0 ↔
          c.endTime - c.startTime - baseTime < -1 / 200) := by
  obtain ⟨runs, hlen, -, hc, -, hret⟩ := runTests_ok rt command tests baseTime w w' r h
  refine ⟨runs, hlen, hc, hret, ?_⟩
  intro c _
  exact ⟨fun hlt => round2_nonpos _ (by linarith), round2_neg_iff _⟩

/-- C6 (witness): two cases with elapsed times `1` and `3` against a base time
of `2.5`: the terms are `-1.5` and `0.5`, the sum is `-1`, the run returns
`-0.001`. -/
theorem runTests_returned_witness :
    ∃ runs : List CaseRun, runs.length = [caseXX, caseXY].length ∧
      [(0 : ℚ), 1, 4, 7] = [] ++ runs.flatMap (fun c => [c.startTime, c.endTime]) ∧
      (-1 / 1000 : ℚ) = (mathRound
        ((runs.map (fun c => round2 (c.endTime - c.startTime - 5 / 2))).sum) : ℚ) / 1000 ∧
      ∀ c ∈ runs,
        (c.endTime - c.startTime < 5 / 2 → round2 (c.endTime - c.startTime - 5 / 2) ≤ 0) ∧
        (round2 (c.endTime - c.startTime - 5 / 2) < 0 ↔
          c.endTime - c.startTime - 5 / 2 < -1 / 200) :=
  runTests_returned echoRuntime "echo".toList [caseXX, caseXY] (5 / 2) (startWorld [0, 1, 4, 7])
    { machine := [],
      execLog := [("echo x".toList, .ok "x\n".toList), ("echo x".toList, .ok "x\n".toList)],
      clockLog := [0, 1, 4, 7] }
    { casesPassed := 1, returned := -1 / 1000 }
    (by
      simp [runTests, runTestsLoop, runTest, ex, performanceNow, echoRuntime, startWorld,
        resolveCommand, trim, after, isTrimChar, caseXX, caseXY]
      have h1 : mathRound (-150) = -150 := by
        have := mathRound_intCast (-150); push_cast at this; exact this
      have h2 : mathRound 50 = 50 := mathRound_intCast 50
      have h3 : mathRound (-1) = -1 := by
        have := mathRound_intCast (-1); push_cast at this; exact this
      norm_num [h1, h2, h3])

/-- C7: `runTests` fails with the error `e` exactly when the test cases split
into a first part that runs to completion, a test case whose command then
fails with `e`, and a rest.  The world left behind is the one right after the
failing command: its execution log ends with that command and holds nothing
of the rest.  A failure yields no summary, so a failing execution is never
counted as a case that did not pass. -/
theorem runTests_fails_iff {σ : Type} (rt : Runtime σ) (command : Str)
    (tests : List TestCase) (baseTime : ℚ) (w w' : World σ) (e : JsError) :
    runTests rt command tests baseTime w = (.error e, w') ↔
      ∃ (pre : List TestCase) (t : TestCase) (post : List TestCase) (r : RunSummary)
        (wmid : World σ) (runs : List CaseRun),
        tests = pre ++ t :: post ∧
        runTests rt command pre baseTime w = (.ok r, wmid) ∧
        ex rt (commandLine rt command t) (performanceNow rt wmid).2 = (.error e, w') ∧
        runs.length = pre.length ∧
        w'.execLog = w.execLog ++
          List.zipWith (fun t c => (commandLine rt command t, Except.ok c.stdout)) pre runs ++
          [(commandLine rt command t, .error e)] := by
  constructor
  · intro h
    unfold runTests at h
    cases hl : runTestsLoop rt command baseTime tests { totalTime := 0, casesPassed := 0 } w with
    | mk res w2 =>
      cases res with
      | ok tally => simp [hl] at h
      | error e2 =>
        simp only [hl, Prod.mk.injEq, Except.error.injEq] at h
        obtain ⟨h1, h2⟩ := h
        subst h1; subst h2
        obtain ⟨pre, t, post, mid, wmid, hsplit, hpre, hex⟩ :=
          (runTestsLoop_error rt command baseTime tests _ w w2 e2).1 hl
        have hrun : runTests rt command pre baseTime w =
            (.ok { casesPassed := mid.casesPassed,
                   returned := (mathRound mid.totalTime : ℚ) / 1000 }, wmid) := by
          simp only [runTests, hpre]
        obtain ⟨runs, hlen, hx, -, -, -⟩ := runTests_ok rt command pre baseTime w wmid _ hrun
        refine ⟨pre, t, post, _, wmid, runs, hsplit, hrun, hex, hlen, ?_⟩
        have : w2.execLog = wmid.execLog ++ [(commandLine rt command t, .error e2)] := by
          simp only [ex, performanceNow, Prod.mk.injEq] at hex
          obtain ⟨h1, h2⟩ := hex
          rw [← h2]; simp only [h1]
        rw [this, hx]
  · rintro ⟨pre, t, post, r, wmid, runs, hsplit, hpre, hex, -, -⟩
    unfold runTests at hpre ⊢
    cases hl : runTestsLoop rt command baseTime pre { totalTime := 0, casesPassed := 0 } w with
    | mk res w2 =>
      cases res with
      | error e2 => simp [hl] at hpre
      | ok tally =>
        simp only [hl, Prod.mk.injEq, Except.ok.injEq] at hpre
        obtain ⟨-, hw⟩ := hpre
        subst hw
        have := (runTestsLoop_error rt command baseTime tests _ w w' e).2
          ⟨pre, t, post, tally, w2, hsplit, hl, hex⟩
        simp only [this]

/-- C7 (example): with the command `fail`, rejected with exit code `1`, a run
over two test cases stops at the first: one command in the execution log, one
clock reading, and the rejection as the outcome. -/
theorem runTests_fails_iff_witness :
    runTests echoRuntime "fail".toList [caseXX, caseXY] 0 (startWorld [0, 1]) =
      (.error (.execError 1),
       { machine := [1], execLog := [("fail x".toList, .error (.execError 1))],
         clockLog := [0] }) :=
  (runTests_fails_iff echoRuntime "fail".toList [caseXX, caseXY] 0 (startWorld [0, 1]) _ _).2
    ⟨[], caseXX, [caseXY], { casesPassed := 0, returned := 0 }, startWorld [0, 1], [],
      rfl, by norm_num [runTests, runTestsLoop, mathRound], rfl, rfl, rfl⟩

/-- C8: with no base command (`undefined`), `getBaseTime` returns `0` whatever
`baseTimeRuns` is and whatever the machine would do, and leaves the world as
it was: no command is executed and the clock is not read. -/
theorem getBaseTime_undefined {σ : Type} (rt : Runtime σ) (fuel : Nat)
    (baseTimeRuns : Nat → Bool) (w : World σ) :
    getBaseTime rt fuel none baseTimeRuns w = some (.ok (.val 0), w) ∧
    ∀ r w', getBaseTime rt fuel none baseTimeRuns w = some (r, w') →
      w'.execLog = w.execLog := by
  refine ⟨rfl, ?_⟩
  intro r w' h
  simp only [getBaseTime, Option.some.injEq, Prod.mk.injEq] at h
  rw [← h.2]

end PDTester
